import Mathlib

/-!
Verification of the theme-composition engine of react-css-themr
(file src/components/themr.ts), shallowly embedded in Lean.

A JavaScript theme value is a string, a nested theme object, a function
(injected by external style loaders), or the JavaScript value undefined.
JavaScript objects are modelled as association lists in property-insertion
order, which is the order `Object.keys` iterates and object spread copies.
All string operations are modelled at the character-list level with the
exact semantics of the JavaScript methods the source uses
(`split(' ')`, `join(' ')`, `startsWith`, `substr`, first-character
`toLowerCase`).
-/

set_option autoImplicit false

inductive TVal where
  | str : String → TVal
  | obj : List (String × TVal) → TVal
  | fn : TVal
  | undef : TVal

abbrev Theme := List (String × TVal)

def TVal.isFn : TVal → Bool
  | .fn => true
  | _ => false

def TVal.isObj : TVal → Bool
  | .obj _ => true
  | _ => false

def TVal.isStr : TVal → Bool
  | .str _ => true
  | _ => false

/-- Property read `o[k]`: the value of the first entry with key `k`, or
JavaScript undefined when the key is absent. -/
def objGet : Theme → String → TVal
  | [], _ => .undef
  | kv :: rest, k => if kv.1 = k then kv.2 else objGet rest k

/-- Property write `o[k] = v`: replaces the value at an existing key in
place (keeping its position), otherwise appends the new key at the end,
exactly as JavaScript assignment affects `Object.keys` order. -/
def objSet : Theme → String → TVal → Theme
  | [], k, v => [(k, v)]
  | kv :: rest, k, v => if kv.1 = k then (k, v) :: rest else kv :: objSet rest k v

/-- Object spread / `Object.assign` step: copy every entry of `b` onto `a`
in order. -/
def objAssign (a b : Theme) : Theme :=
  b.foldl (fun acc kv => objSet acc kv.1 kv.2) a

/-- JavaScript `s.split(' ')` (split on the literal space character, with
empty pieces kept, and `''.split(' ') = ['']`). -/
def splitSpAux : List Char → List Char → List String
  | acc, [] => [String.mk acc.reverse]
  | acc, c :: cs =>
    if c = ' ' then String.mk acc.reverse :: splitSpAux [] cs
    else splitSpAux (c :: acc) cs

def jsSplitSpace (s : String) : List String := splitSpAux [] s.data

/-- JavaScript `arr.join(' ')`. -/
def joinSpace : List String → String
  | [] => ""
  | [x] => x
  | x :: y :: rest => x ++ " " ++ joinSpace (y :: rest)

/-- The callback of
`.filter((item, pos, self) => self.indexOf(item) === pos && item !== '')`
applied along the array: `self` is the whole array being filtered and
`pos` the current index. -/
def jsDedupeFrom (self : List String) : Nat → List String → List String
  | _, [] => []
  | pos, x :: rest =>
    if self.indexOf x = pos ∧ x ≠ "" then x :: jsDedupeFrom self (pos + 1) rest
    else jsDedupeFrom self (pos + 1) rest

def jsDedupe (l : List String) : List String := jsDedupeFrom l 0 l

/-- The scalar-scalar case of `merge` (themr.ts lines 256-259):
`original.split(' ').concat(mixin.split(' ')).filter((item, pos, self) =>
self.indexOf(item) === pos && item !== '').join(' ')`. -/
def mergeScalar (a b : String) : String :=
  joinSpace (jsDedupe (jsSplitSpace a ++ jsSplitSpace b))

/-- Step 1 of `merge` (themr.ts lines 190-196): copy `original`, silently
dropping function-typed values. -/
def cloneStrip (o : Theme) : Theme :=
  o.filter (fun kv => !kv.2.isFn)

/-- Step 2 of `merge` (themr.ts lines 199-266): traverse the mixin entries
in `Object.keys(mixin)` order and fold them into the result object.
`result` is the accumulator; each mixin value is dispatched on its
`typeof`, then on the `typeof` of the current `result[key]`. -/
def mergeGo : Theme → List (String × TVal) → Except String Theme
  | result, [] => .ok result
  | result, (k, mv) :: rest =>
    match mv with
    | .obj mo =>
      match objGet result k with
      | .obj oo =>
        match mergeGo (cloneStrip oo) mo with
        | .ok merged => mergeGo (objSet result k (.obj merged)) rest
        | .error e => .error e
      | .undef => mergeGo (objSet result k (.obj mo)) rest
      | _ => .error ("You are merging object " ++ k ++ " with a non-object")
    | .undef => mergeGo result rest
    | .fn => mergeGo result rest
    | .str s =>
      match objGet result k with
      | .obj _ => .error ("You are merging non-object " ++ s ++ " with an object " ++ k)
      | .undef => mergeGo (objSet result k (.str s)) rest
      | .fn => mergeGo result rest
      | .str os => mergeGo (objSet result k (.str (mergeScalar os s))) rest

/-- `merge(original = {}, mixin = {})` of themr.ts lines 187-269. An
`Except.error` models a thrown `Error`. -/
def merge (original mixin : Theme) : Except String Theme :=
  mergeGo (cloneStrip original) mixin

/-- Mixin-position coercion of an arbitrary runtime value: `merge`'s
default parameter replaces undefined by `{}`; `Object.keys` of a function
is empty; `Object.keys` of a string enumerates its character indices
(`"0"`, `"1"`, ...) with single-character values, which is also what
object spread does to a string. -/
def charIdxAux : Nat → List Char → Theme
  | _, [] => []
  | i, c :: cs => (toString i, TVal.str (String.mk [c])) :: charIdxAux (i + 1) cs

def toObjPairs : TVal → Theme
  | .obj o => o
  | .str s => charIdxAux 0 s.data
  | .fn => []
  | .undef => []

/-- `themes.reduce((acc, theme) => merge(acc, theme), {})` applied to
arbitrary runtime values (the call sites pass possibly-undefined values). -/
def themeableVals (vals : List TVal) : Except String Theme :=
  vals.foldl (fun acc v => acc >>= fun a => merge a (toObjPairs v)) (.ok [])

/-- `themeable(...themes)` of themr.ts lines 178-180. -/
def themeable (themes : List Theme) : Except String Theme :=
  themeableVals (themes.map TVal.obj)

/-- JavaScript `key.startsWith(ns)` at the character level. -/
def strStartsWithChars : List Char → List Char → Bool
  | _, [] => true
  | [], _ :: _ => false
  | c :: cs, p :: ps => c = p && strStartsWithChars cs ps

def strStartsWith (key ns : String) : Bool := strStartsWithChars key.data ns.data

/-- `capitalized.slice(0, 1).toLowerCase() + capitalized.slice(1)`. -/
def lowerFirst (s : String) : String :=
  match s.data with
  | [] => ""
  | c :: cs => String.mk (c.toLower :: cs)

/-- `removeNamespace` of themr.ts lines 292-295: strip the namespace
prefix (`key.substr(themeNamespace.length)`) and lower-case the first
remaining character. -/
def removeNamespace (key : String) (themeNamespace : String) : String :=
  lowerFirst (String.mk (key.data.drop themeNamespace.data.length))

/-- JavaScript truthiness of an optional string property: absent and the
empty string are falsy. -/
def strTruthy : Option String → Bool
  | none => false
  | some s => if s = "" then false else true

/-- `Themed.getNamespacedTheme(props)` of themr.ts lines 103-115. The
first guard is `!themeNamespace || !theme`, so the `throw` branch guarded
by `themeNamespace && !theme` is unreachable; it is kept here exactly as
in the source. Note that a present theme object is always truthy. -/
def getNamespacedTheme (themeNamespace : Option String) (theme : Option Theme) :
    Except String Theme :=
  if !strTruthy themeNamespace || theme.isNone then
    .ok (theme.getD [])
  else if strTruthy themeNamespace && theme.isNone then
    .error "Invalid themeNamespace use in react-css-themr. themeNamespace prop should be used only with theme prop."
  else
    match themeNamespace, theme with
    | some ns, some t =>
      .ok ((t.filter (fun kv => strStartsWith kv.1 ns)).foldl
        (fun result kv => objSet result (removeNamespace kv.1 ns) kv.2) [])
    | _, _ => .ok []

/-- The `composeTheme` option: `'deeply' | 'softly' | false`. `off` is the
only falsy value. -/
inductive ComposeOpt where
  | deeply
  | softly
  | off
deriving DecidableEq

/-- `Themed.getThemeNotComposed(props)` of themr.ts lines 117-125. The
ancestor-context value (`getContextTheme()`) and the static theme are
taken as inputs; the context value can be any runtime value. -/
def getThemeNotComposed (ctxVal : TVal) (localTheme : Option Theme)
    (themeNamespace : Option String) (theme : Option Theme) : Except String TVal :=
  if theme.isSome then
    (getNamespacedTheme themeNamespace theme).map TVal.obj
  else
    match localTheme with
    | some l => .ok (.obj l)
    | none => .ok ctxVal

/-- `Themed.getTheme(props)` of themr.ts lines 133-143: when
`composeTheme === 'deeply'` it builds the object spread
`{...getContextTheme(), ...config.localTheme, ...getNamespacedTheme(props)}`;
otherwise (`'softly'`, since `calcTheme` routes falsy values elsewhere)
it calls `themeable(getContextTheme(), config.localTheme,
getNamespacedTheme(props))`. -/
def getTheme (ctxVal : TVal) (localTheme : Option Theme) (composeTheme : ComposeOpt)
    (themeNamespace : Option String) (theme : Option Theme) : Except String Theme :=
  if composeTheme = ComposeOpt.deeply then
    (getNamespacedTheme themeNamespace theme).map (fun ns =>
      objAssign (objAssign (objAssign [] (toObjPairs ctxVal))
        (toObjPairs (localTheme.elim TVal.undef TVal.obj))) ns)
  else
    (getNamespacedTheme themeNamespace theme) >>= fun ns =>
      themeableVals [ctxVal, localTheme.elim TVal.undef TVal.obj, TVal.obj ns]

/-- `Themed.calcTheme(props)` of themr.ts lines 145-150:
`composeTheme ? this.getTheme(props) : this.getThemeNotComposed(props)`. -/
def calcTheme (ctxVal : TVal) (localTheme : Option Theme) (composeTheme : ComposeOpt)
    (themeNamespace : Option String) (theme : Option Theme) : Except String TVal :=
  match composeTheme with
  | .off => getThemeNotComposed ctxVal localTheme themeNamespace theme
  | c => (getTheme ctxVal localTheme c themeNamespace theme).map TVal.obj

/-- The config object stored by `themr` (themr.ts lines 62-65): it is
created as `{ identifier, localTheme }`; no `componentName` field is ever
assigned, so reading `config.componentName` yields JavaScript undefined,
modelled by the field being `none`. -/
structure ThemrConfig where
  identifier : String
  componentName : Option String
  localTheme : Option Theme

def mkConfig (identifier : String) (localTheme : Option Theme) : ThemrConfig :=
  { identifier := identifier, componentName := none, localTheme := localTheme }

/-- JavaScript coerces a property key to a string: accessing
`theme[config.componentName]` with an undefined `componentName` reads the
property named `"undefined"`. -/
def jsPropKey : Option String → String
  | none => "undefined"
  | some s => s

/-- `Themed.getContextTheme()` of themr.ts lines 127-131:
`this.context.themr ? this.context.themr.theme[config.componentName] : {}`. -/
def getContextTheme (providerTheme : Option Theme) (config : ThemrConfig) : TVal :=
  match providerTheme with
  | none => .obj []
  | some t => objGet t (jsPropKey config.componentName)

/-- The full per-render theme computation: ancestor value looked up from
the provider theme through the stored config, then `calcTheme`. -/
def calcThemeFull (providerTheme : Option Theme) (config : ThemrConfig)
    (composeTheme : ComposeOpt) (themeNamespace : Option String) (theme : Option Theme) :
    Except String TVal :=
  calcTheme (getContextTheme providerTheme config) config.localTheme
    composeTheme themeNamespace theme

def keysNodup : List String → Bool
  | [] => true
  | k :: ks => !(ks.contains k) && keysNodup ks

-- A well-formed theme in the sense of the data model (and of the
-- TypeScript type `TReactCSSThemrTheme`): every value is a string or a
-- nested well-formed theme, and keys are unique at every level.
mutual
def wfV : TVal → Bool
  | .str _ => true
  | .fn => false
  | .undef => false
  | .obj o => keysNodup (o.map Prod.fst) && wfT o
def wfT : List (String × TVal) → Bool
  | [] => true
  | (_, v) :: rest => wfV v && wfT rest
end

def wellFormed (t : Theme) : Bool := wfV (.obj t)

/-- Modelled from the spec: section 4.2 describes the token merge as
splitting both inputs "on whitespace"; this is the whitespace-token list
of a string under that reading (used only to compare the spec's wording
with the source's space-character split). -/
def splitWsAux : List Char → List Char → List String
  | acc, [] => [String.mk acc.reverse]
  | acc, c :: cs =>
    if c.isWhitespace then String.mk acc.reverse :: splitWsAux [] cs
    else splitWsAux (c :: acc) cs

def wsTokens (s : String) : List String :=
  (splitWsAux [] s.data).filter (fun t => t ≠ "")

/-- The non-empty space-delimited tokens of a string (the token notion
induced by the source's `split(' ')`). -/
def spaceTokens (s : String) : List String :=
  (jsSplitSpace s).filter (fun t => t ≠ "")

/-- First-occurrence de-duplication with an explicit seen accumulator;
`dedupeSeen seen l` keeps the first occurrence of every non-empty element
of `l` that is not already in `seen`. This is the specification-level
description of `jsDedupe`. -/
def dedupeSeen (seen : List String) : List String → List String
  | [] => []
  | x :: rest =>
    if x ∈ seen ∨ x = "" then dedupeSeen (x :: seen) rest
    else x :: dedupeSeen (x :: seen) rest

/-- A shape conflict between the current result value at a key and the
mixin value at that key: one side is a nested object while the other is a
scalar string (the two `throw` situations of `merge`). -/
def conflictAt (result : Theme) (kv : String × TVal) : Bool :=
  (objGet result kv.1).isObj && kv.2.isStr || (objGet result kv.1).isStr && kv.2.isObj

theorem objGet_not_mem : ∀ {l : Theme} {k : String}, k ∉ l.map Prod.fst → objGet l k = .undef := by
  intro l k h
  induction l with
  | nil => rfl
  | cons kv rest ih =>
    simp only [List.map_cons, List.mem_cons, not_or] at h
    have hne : kv.1 ≠ k := fun e => h.1 e.symm
    simp only [objGet, if_neg hne]
    exact ih h.2

theorem objSet_not_mem : ∀ {l : Theme} {k : String} (v : TVal), k ∉ l.map Prod.fst →
    objSet l k v = l ++ [(k, v)] := by
  intro l k v h
  induction l with
  | nil => rfl
  | cons kv rest ih =>
    simp only [List.map_cons, List.mem_cons, not_or] at h
    have hne : kv.1 ≠ k := fun e => h.1 e.symm
    simp only [objSet, if_neg hne, List.cons_append, List.cons.injEq, true_and]
    exact ih h.2

theorem objGet_objSet_ne : ∀ {l : Theme} {k k' : String} (v : TVal), k ≠ k' →
    objGet (objSet l k v) k' = objGet l k' := by
  intro l k k' v hne
  induction l with
  | nil => simp only [objSet, objGet, if_neg hne]
  | cons kv rest ih =>
    by_cases hk : kv.1 = k
    · simp only [objSet, if_pos hk, objGet, if_neg hne, hk]
    · simp only [objSet, if_neg hk, objGet]
      by_cases hk' : kv.1 = k'
      · simp only [if_pos hk']
      · simp only [if_neg hk']
        exact ih

/-- Heap values for the mutation/aliasing model of `merge`: nested theme
objects are references into a heap of objects, as in JavaScript. -/
inductive HVal where
  | str : String → HVal
  | ref : Nat → HVal
  | fn : HVal
  | undef : HVal

abbrev HObj := List (String × HVal)

/-- A heap is a list of objects; the address of an object is its index,
and allocation appends at the end. -/
abbrev Heap := List HObj

def HVal.isFn : HVal → Bool
  | .fn => true
  | _ => false

def heapGet (h : Heap) (a : Nat) : HObj := h.getD a []

def hGet : HObj → String → HVal
  | [], _ => .undef
  | kv :: rest, k => if kv.1 = k then kv.2 else hGet rest k

def hSet : HObj → String → HVal → HObj
  | [], k, v => [(k, v)]
  | kv :: rest, k, v => if kv.1 = k then (k, v) :: rest else kv :: hSet rest k v

def cloneStripH (o : HObj) : HObj := o.filter (fun kv => !kv.2.isFn)

mutual
/-- Heap-level `merge(a, b)` (same algorithm as `merge`, themr.ts lines
187-269, with explicit references and allocation): the arguments are
addresses of the original and mixin objects, the result object is a fresh
allocation, and every read goes through the heap. `fuel` bounds the
recursion depth, which suffices for the acyclic object graphs themes are
(cyclic themes are unsupported). Returns the final heap and the result
address, or the heap and the thrown error. -/
def mergeHeap : Nat → Heap → Nat → Nat → Heap × Except String Nat
  | 0, h, _, _ => (h, .error "recursion limit")
  | fuel + 1, h, a, b =>
    match mergeHeapGo fuel h (cloneStripH (heapGet h a)) (heapGet h b) with
    | (h2, .ok res) => (h2 ++ [res], .ok h2.length)
    | (h2, .error e) => (h2, .error e)
termination_by fuel _ _ _ => (fuel, 0)

/-- The mixin traversal of the heap-level merge, mirroring `mergeGo`. -/
def mergeHeapGo : Nat → Heap → HObj → List (String × HVal) → Heap × Except String HObj
  | _, h, result, [] => (h, .ok result)
  | fuel, h, result, (k, mv) :: rest =>
    match mv with
    | .ref mAddr =>
      match hGet result k with
      | .ref oAddr =>
        match mergeHeap fuel h oAddr mAddr with
        | (h2, .ok rAddr) => mergeHeapGo fuel h2 (hSet result k (.ref rAddr)) rest
        | (h2, .error e) => (h2, .error e)
      | .undef => mergeHeapGo fuel h (hSet result k (.ref mAddr)) rest
      | _ => (h, .error "You are merging object with a non-object")
    | .undef => mergeHeapGo fuel h result rest
    | .fn => mergeHeapGo fuel h result rest
    | .str s =>
      match hGet result k with
      | .ref _ => (h, .error "You are merging non-object with an object")
      | .undef => mergeHeapGo fuel h (hSet result k (.str s)) rest
      | .fn => mergeHeapGo fuel h result rest
      | .str os => mergeHeapGo fuel h (hSet result k (.str (mergeScalar os s))) rest
termination_by fuel _ _ l => (fuel, l.length + 1)
end

theorem except_ok_bind {ε α β : Type} (a : α) (f : α → Except ε β) :
    (Except.ok a : Except ε α) >>= f = f a := rfl

theorem except_error_bind {ε α β : Type} (e : ε) (f : α → Except ε β) :
    (Except.error e : Except ε α) >>= f = Except.error e := rfl

theorem except_map_ok {ε α β : Type} (f : α → β) (a : α) :
    (Except.ok a : Except ε α).map f = Except.ok (f a) := rfl

theorem except_map_error {ε α β : Type} (f : α → β) (e : ε) :
    (Except.error e : Except ε α).map f = Except.error e := rfl

/-- Claim C1. The spec says mode `deeply` computes the full recursive
`merge(merge(ancestorTheme, staticTheme), normalizedPropertyTheme)`. The
code instead performs a shallow top-level object spread in that mode
(themr.ts lines 134-139): with ancestor `{btn: 'a'}` and static
`{btn: 'b'}` it yields `{btn: 'b'}`, while the recursive merge the claim
requires yields `{btn: 'a b'}`. -/
theorem deeply_mode_shallow_override :
    calcTheme (.obj [("btn", .str "a")]) (some [("btn", .str "b")]) .deeply none none
      = .ok (.obj [("btn", .str "b")])
    ∧ ((merge [("btn", .str "a")] [("btn", .str "b")]) >>= fun ab => merge ab [])
      = .ok [("btn", .str "a b")] := by
  constructor
  · simp [calcTheme, getTheme, getNamespacedTheme, strTruthy, objAssign, objSet, toObjPairs,
      Option.elim, except_ok_bind, except_error_bind, except_map_ok, except_map_error]
  · simp [merge, mergeGo, cloneStrip, objGet, objSet, TVal.isFn, mergeScalar, jsDedupe,
      jsDedupeFrom, jsSplitSpace, splitSpAux, joinSpace, except_ok_bind, except_error_bind]

/-- Claim C2. The spec says mode `softly` is a shallow top-level override,
so with ancestor `{x: {a: '1'}}` and static `{x: {b: '1'}}` the key `x`
should resolve to `{b: '1'}` only. The code instead routes mode `softly`
to `themeable`, the full recursive merge (themr.ts lines 140-142), which
keeps the nested sibling `a`. -/
theorem softly_mode_deep_merge :
    calcTheme (.obj [("x", .obj [("a", .str "1")])]) (some [("x", .obj [("b", .str "1")])])
        .softly none none
      = .ok (.obj [("x", .obj [("a", .str "1"), ("b", .str "1")])]) := by
  simp [calcTheme, getTheme, getNamespacedTheme, strTruthy, themeableVals, toObjPairs,
    Option.elim, merge, mergeGo, cloneStrip, objGet, objSet, TVal.isFn, Except.bind, except_ok_bind, except_error_bind, except_map_ok, except_map_error]

/-- Claim C3. The spec says a namespace supplied without a theme fails
with an `InvalidUsage` error. In the code the guard
`!themeNamespace || !theme` of `getNamespacedTheme` (themr.ts line 105)
returns `theme || {}` first, so the `throw` on line 108 is unreachable:
with `themeNamespace = 'foo'` and no theme the filter returns `{}` and
every composition mode silently resolves a fallback theme. -/
theorem namespace_without_theme_silent :
    getNamespacedTheme (some "foo") none = .ok []
    ∧ calcTheme (.obj [("a", .str "x")]) (some [("s", .str "y")]) .deeply (some "foo") none
      = .ok (.obj [("a", .str "x"), ("s", .str "y")])
    ∧ calcTheme (.obj [("a", .str "x")]) (some [("s", .str "y")]) .softly (some "foo") none
      = .ok (.obj [("a", .str "x"), ("s", .str "y")])
    ∧ calcTheme (.obj [("a", .str "x")]) (some [("s", .str "y")]) .off (some "foo") none
      = .ok (.obj [("s", .str "y")]) := by
  refine ⟨rfl, ?_, ?_, rfl⟩
  · simp [calcTheme, getTheme, getNamespacedTheme, strTruthy, objAssign, objSet, toObjPairs,
      Option.elim, except_ok_bind, except_error_bind, except_map_ok, except_map_error]
  · simp [calcTheme, getTheme, getNamespacedTheme, strTruthy, themeableVals, toObjPairs,
      Option.elim, merge, mergeGo, cloneStrip, objGet, objSet, TVal.isFn, Except.bind, except_ok_bind, except_error_bind, except_map_ok, except_map_error]

/-- Claim C8. With composition disabled (falsy `composeTheme`), exactly one
source is returned untouched, with precedence property theme, then static
theme, then ancestor value; in particular property `{p: '1'}` wins over
static `{s: '1'}` and ancestor `{a: '1'}`. -/
theorem no_compose_precedence :
    ∀ (ctxVal : TVal) (lt : Option Theme) (pt l : Theme),
    calcTheme ctxVal lt .off none (some pt) = .ok (.obj pt)
    ∧ calcTheme ctxVal (some l) .off none none = .ok (.obj l)
    ∧ calcTheme ctxVal none .off none none = .ok ctxVal
    ∧ calcTheme (.obj [("a", .str "1")]) (some [("s", .str "1")]) .off none
        (some [("p", .str "1")])
      = .ok (.obj [("p", .str "1")]) := by
  intro ctxVal lt pt l
  refine ⟨?_, rfl, rfl, rfl⟩
  simp [calcTheme, getThemeNotComposed, getNamespacedTheme, strTruthy, except_ok_bind, except_error_bind, except_map_ok, except_map_error]

/-- Claim C4. The stored config is created as `{ identifier, localTheme }`
while `getContextTheme` reads `config.componentName`, which is therefore
always undefined; the lookup `theme[config.componentName]` reads the
literal key `"undefined"`. Hence for any two provider themes that lack a
literal key named `"undefined"`, the computed theme is identical in every
composition mode: the ancestor-context source never contributes. -/
theorem ancestor_noninterference :
    ∀ (identifier : String) (lt : Option Theme) (compose : ComposeOpt)
      (ns : Option String) (th : Option Theme) (t1 t2 : Theme),
    "undefined" ∉ t1.map Prod.fst → "undefined" ∉ t2.map Prod.fst →
    calcThemeFull (some t1) (mkConfig identifier lt) compose ns th
      = calcThemeFull (some t2) (mkConfig identifier lt) compose ns th := by
  intro identifier lt compose ns th t1 t2 h1 h2
  show calcTheme (getContextTheme (some t1) (mkConfig identifier lt)) lt compose ns th
    = calcTheme (getContextTheme (some t2) (mkConfig identifier lt)) lt compose ns th
  have e1 : getContextTheme (some t1) (mkConfig identifier lt) = .undef :=
    objGet_not_mem h1
  have e2 : getContextTheme (some t2) (mkConfig identifier lt) = .undef :=
    objGet_not_mem h2
  rw [e1, e2]

/-- Witness for `ancestor_noninterference`: two concrete provider themes
with different contents produce the same computed theme. -/
theorem ancestor_noninterference_witness :
    ("undefined" ∉ ([("a", TVal.str "1")] : Theme).map Prod.fst)
    ∧ ("undefined" ∉ ([("b", TVal.str "2")] : Theme).map Prod.fst)
    ∧ calcThemeFull (some [("a", TVal.str "1")]) (mkConfig "Button" none) .deeply none none
      = calcThemeFull (some [("b", TVal.str "2")]) (mkConfig "Button" none) .deeply none none :=
  ⟨by decide, by decide,
    ancestor_noninterference "Button" none .deeply none none _ _ (by decide) (by decide)⟩

theorem objGet_mem_of_ne_undef : ∀ {m : Theme} {k : String},
    objGet m k ≠ .undef → (k, objGet m k) ∈ m := by
  intro m k h
  induction m with
  | nil => exact absurd rfl h
  | cons kv rest ih =>
    by_cases hk : kv.1 = k
    · subst hk
      simp only [objGet, if_pos rfl] at h ⊢
      exact List.mem_cons_self kv rest
    · simp only [objGet, if_neg hk] at h ⊢
      exact List.mem_cons_of_mem _ (ih h)

theorem objGet_cloneStrip : ∀ {o : Theme} {k : String},
    (objGet o k).isFn = false → objGet (cloneStrip o) k = objGet o k := by
  intro o k h
  induction o with
  | nil => rfl
  | cons kv rest ih =>
    by_cases hk : kv.1 = k
    · simp only [objGet, if_pos hk] at h ⊢
      have : (!kv.2.isFn) = true := by simp [h]
      simp only [cloneStrip, List.filter_cons, this, objGet, if_pos hk]
    · simp only [objGet, if_neg hk] at h ⊢
      by_cases hf : kv.2.isFn
      · simp only [cloneStrip, List.filter_cons, hf]
        simpa only [cloneStrip] using ih h
      · have : (!kv.2.isFn) = true := by simp [hf]
        simp only [cloneStrip, List.filter_cons, this, objGet, if_neg hk]
        simpa only [cloneStrip] using ih h

theorem conflictAt_objSet_ne {result : Theme} {k0 : String} (v : TVal) {kv : String × TVal}
    (hne : k0 ≠ kv.1) : conflictAt (objSet result k0 v) kv = conflictAt result kv := by
  simp only [conflictAt, objGet_objSet_ne v hne]

theorem mergeGo_conflict : ∀ (m : List (String × TVal)) (result : Theme),
    (m.map Prod.fst).Nodup →
    (∃ kv ∈ m, conflictAt result kv = true) →
    (mergeGo result m).isOk = false := by
  intro m
  induction m with
  | nil =>
    intro result _ h
    rcases h with ⟨kv, hm, _⟩
    exact absurd hm (List.not_mem_nil kv)
  | cons hd rest ih =>
    intro result hnd hconf
    obtain ⟨k0, mv0⟩ := hd
    simp only [List.map_cons, List.nodup_cons] at hnd
    obtain ⟨hk0, hndr⟩ := hnd
    rcases hconf with ⟨kv, hkv, hc⟩
    rcases List.mem_cons.mp hkv with heq | hmem
    · -- the conflicting key is the head mixin entry
      subst heq
      simp only [conflictAt, Bool.or_eq_true, Bool.and_eq_true] at hc
      rcases hc with ⟨ho, hs⟩ | ⟨ho, hs⟩
      · rcases hov : objGet result k0 with _ | oo | _ | _ <;> rw [hov] at ho <;>
          simp [TVal.isObj] at ho
        rcases hmv : mv0 with s | _ | _ | _ <;> rw [hmv] at hs <;>
          simp [TVal.isStr] at hs
        simp [mergeGo, hov, Except.isOk, Except.toBool]
      · rcases hov : objGet result k0 with s | _ | _ | _ <;> rw [hov] at ho <;>
          simp [TVal.isStr] at ho
        rcases hmv : mv0 with _ | mo | _ | _ <;> rw [hmv] at hs <;>
          simp [TVal.isObj] at hs
        simp [mergeGo, hov, Except.isOk, Except.toBool]
    · -- the conflicting key sits further along the mixin list
      have hkne : k0 ≠ kv.1 := by
        intro e
        exact hk0 (e ▸ List.mem_map_of_mem Prod.fst hmem)
      have step : ∀ r : Theme, (∃ kv2 ∈ rest, conflictAt r kv2 = true) →
          (mergeGo r rest).isOk = false := fun r h => ih r hndr h
      cases mv0 with
      | undef =>
        simp only [mergeGo]
        exact step result ⟨kv, hmem, hc⟩
      | fn =>
        simp only [mergeGo]
        exact step result ⟨kv, hmem, hc⟩
      | str s =>
        rcases hov : objGet result k0 with os | oo | _ | _
        · simp only [mergeGo, hov]
          exact step _ ⟨kv, hmem, by rw [conflictAt_objSet_ne _ hkne]; exact hc⟩
        · simp [mergeGo, hov, Except.isOk, Except.toBool]
        · simp only [mergeGo, hov]
          exact step result ⟨kv, hmem, hc⟩
        · simp only [mergeGo, hov]
          exact step _ ⟨kv, hmem, by rw [conflictAt_objSet_ne _ hkne]; exact hc⟩
      | obj mo =>
        rcases hov : objGet result k0 with os | oo | _ | _
        · simp [mergeGo, hov, Except.isOk, Except.toBool]
        · simp only [mergeGo, hov]
          rcases hmm : mergeGo (cloneStrip oo) mo with e | merged
          · simp [Except.isOk, Except.toBool]
          · exact step _ ⟨kv, hmem, by rw [conflictAt_objSet_ne _ hkne]; exact hc⟩
        · simp [mergeGo, hov, Except.isOk, Except.toBool]
        · simp only [mergeGo, hov]
          exact step _ ⟨kv, hmem, by rw [conflictAt_objSet_ne _ hkne]; exact hc⟩

/-- Claim C5. Whenever one merged source holds a nested mapping at a key
and the other holds a scalar string at the same key (in either direction),
`merge` fails with a thrown merge-conflict error and returns no result. -/
theorem merge_conflict_errors :
    ∀ (o m : Theme) (k : String),
    (m.map Prod.fst).Nodup →
    conflictAt o (k, objGet m k) = true →
    (merge o m).isOk = false := by
  intro o m k hnd hc
  have hmv : objGet m k ≠ .undef := by
    intro e
    rw [conflictAt, e] at hc
    simp [TVal.isStr, TVal.isObj] at hc
  have hfn : (objGet o k).isFn = false := by
    rcases hv : objGet o k with _ | _ | _ | _
    · rfl
    · rfl
    · rw [conflictAt, hv] at hc
      simp [TVal.isStr, TVal.isObj] at hc
    · rfl
  unfold merge
  apply mergeGo_conflict m (cloneStrip o) hnd
  refine ⟨(k, objGet m k), objGet_mem_of_ne_undef hmv, ?_⟩
  simpa only [conflictAt, objGet_cloneStrip hfn] using hc

/-- Witness for `merge_conflict_errors` at the spec's own example
`merge({ btn: { color: 'red' } }, { btn: 'solid' })`. -/
theorem merge_conflict_errors_witness :
    ((([("btn", TVal.str "solid")] : Theme).map Prod.fst).Nodup)
    ∧ conflictAt [("btn", TVal.obj [("color", TVal.str "red")])]
        ("btn", objGet [("btn", TVal.str "solid")] "btn") = true
    ∧ (merge [("btn", TVal.obj [("color", TVal.str "red")])]
        [("btn", TVal.str "solid")]).isOk = false :=
  ⟨by decide, by decide,
    merge_conflict_errors [("btn", TVal.obj [("color", TVal.str "red")])]
      [("btn", TVal.str "solid")] "btn" (by decide) (by decide)⟩

theorem wfT_mem : ∀ {l : List (String × TVal)}, wfT l = true → ∀ kv ∈ l, wfV kv.2 = true := by
  intro l
  induction l with
  | nil => intro _ kv h; exact absurd h (List.not_mem_nil kv)
  | cons hd rest ih =>
    intro hw kv hm
    obtain ⟨k, v⟩ := hd
    rw [wfT, Bool.and_eq_true] at hw
    rcases List.mem_cons.mp hm with heq | hmem
    · subst heq; exact hw.1
    · exact ih hw.2 kv hmem

theorem wfV_not_fn : ∀ {v : TVal}, wfV v = true → v.isFn = false := by
  intro v hv
  cases v with
  | fn => rw [wfV] at hv; exact absurd hv (by simp)
  | str s => rfl
  | obj o => rfl
  | undef => rfl

theorem keysNodup_iff : ∀ {l : List String}, keysNodup l = true ↔ l.Nodup := by
  intro l
  induction l with
  | nil => simp [keysNodup]
  | cons k ks ih =>
    rw [keysNodup, Bool.and_eq_true, List.nodup_cons, ← ih]
    simp [List.elem_iff]

theorem cloneStrip_eq_self : ∀ {X : Theme}, (∀ kv ∈ X, kv.2.isFn = false) → cloneStrip X = X := by
  intro X h
  rw [cloneStrip, List.filter_eq_self]
  intro kv hm
  simp [h kv hm]

theorem mergeGo_fresh : ∀ (X r : Theme),
    (∀ kv ∈ X, wfV kv.2 = true) →
    (X.map Prod.fst).Nodup →
    (∀ kv ∈ X, kv.1 ∉ r.map Prod.fst) →
    mergeGo r X = .ok (r ++ X) := by
  intro X
  induction X with
  | nil => intro r _ _ _; simp [mergeGo]
  | cons hd rest ih =>
    intro r hwf hnd hdisj
    obtain ⟨k, v⟩ := hd
    simp only [List.map_cons, List.nodup_cons] at hnd
    have hov : objGet r k = .undef := objGet_not_mem (hdisj (k, v) (List.mem_cons_self _ _))
    have hset : objSet r k v = r ++ [(k, v)] :=
      objSet_not_mem v (hdisj (k, v) (List.mem_cons_self _ _))
    have hrec : ∀ v' : TVal, mergeGo (r ++ [(k, v')]) rest = .ok ((r ++ [(k, v')]) ++ rest) := by
      intro v'
      apply ih (r ++ [(k, v')])
      · intro kv hm; exact hwf kv (List.mem_cons_of_mem _ hm)
      · exact hnd.2
      · intro kv hm
        simp only [List.map_append, List.mem_append, List.map_cons, List.map_nil,
          List.mem_singleton, not_or]
        refine ⟨hdisj kv (List.mem_cons_of_mem _ hm), ?_⟩
        intro e
        exact hnd.1 (e ▸ List.mem_map_of_mem Prod.fst hm)
    have hwv : wfV v = true := hwf (k, v) (List.mem_cons_self _ _)
    have happ : ∀ v' : TVal, (r ++ [(k, v')]) ++ rest = r ++ (k, v') :: rest := by
      intro v'
      simp [List.append_assoc]
    cases v with
    | str s =>
      simp only [mergeGo, hov, hset, hrec, happ]
    | obj mo =>
      simp only [mergeGo, hov, hset, hrec, happ]
    | fn => exact absurd hwv (by simp [wfV])
    | undef => exact absurd hwv (by simp [wfV])

theorem merge_empty_left : ∀ {X : Theme}, wellFormed X = true → merge [] X = .ok X := by
  intro X hX
  rw [wellFormed, wfV, Bool.and_eq_true] at hX
  have : mergeGo [] X = .ok ([] ++ X) :=
    mergeGo_fresh X [] (wfT_mem hX.2) (keysNodup_iff.mp hX.1) (by intro kv _; simp)
  simpa [merge, cloneStrip] using this

theorem merge_empty_right : ∀ {X : Theme}, wellFormed X = true → merge X [] = .ok X := by
  intro X hX
  rw [wellFormed, wfV, Bool.and_eq_true] at hX
  rw [merge, cloneStrip_eq_self (fun kv hm => wfV_not_fn (wfT_mem hX.2 kv hm))]
  simp [mergeGo]

/-- Claim C9. On well-formed themes (the data model: unique keys, values
strings or nested themes, no function values) the empty theme is a
two-sided identity for `merge`, and `themeable(A, B, C)`, the left fold of
`merge` from the empty mapping, equals `merge(merge(A, B), C)`. -/
theorem merge_identity_and_themeable :
    ∀ (X A B C : Theme),
    wellFormed X = true → wellFormed A = true → wellFormed B = true → wellFormed C = true →
    merge [] X = .ok X
    ∧ merge X [] = .ok X
    ∧ themeable [A, B, C] = ((merge A B) >>= fun ab => merge ab C) := by
  intro X A B C hX hA _ _
  refine ⟨merge_empty_left hX, merge_empty_right hX, ?_⟩
  show themeableVals [TVal.obj A, TVal.obj B, TVal.obj C] = _
  simp only [themeableVals, List.foldl, toObjPairs, except_ok_bind]
  rw [merge_empty_left hA]
  simp only [except_ok_bind]

/-- Witness for `merge_identity_and_themeable` on concrete well-formed
themes. -/
theorem merge_identity_and_themeable_witness :
    wellFormed [("a", TVal.str "x")] = true
    ∧ wellFormed [("b", TVal.obj [("c", TVal.str "y")])] = true
    ∧ wellFormed ([] : Theme) = true
    ∧ (merge [] [("a", TVal.str "x")] = .ok [("a", TVal.str "x")]
      ∧ merge [("a", TVal.str "x")] [] = .ok [("a", TVal.str "x")]
      ∧ themeable [[("a", TVal.str "x")], [("b", TVal.obj [("c", TVal.str "y")])], ([] : Theme)]
        = ((merge [("a", TVal.str "x")] [("b", TVal.obj [("c", TVal.str "y")])])
            >>= fun ab => merge ab [])) :=
  ⟨by simp [wellFormed, wfV, wfT, keysNodup],
    by simp [wellFormed, wfV, wfT, keysNodup],
    by simp [wellFormed, wfV, wfT, keysNodup],
    merge_identity_and_themeable _ _ _ _
      (by simp [wellFormed, wfV, wfT, keysNodup])
      (by simp [wellFormed, wfV, wfT, keysNodup])
      (by simp [wellFormed, wfV, wfT, keysNodup])
      (by simp [wellFormed, wfV, wfT, keysNodup])⟩

theorem foldl_objSet_fresh : ∀ (l : List (String × TVal)) (acc : Theme) (f : String → String),
    (l.map (fun kv => f kv.1)).Nodup →
    (∀ kv ∈ l, f kv.1 ∉ acc.map Prod.fst) →
    l.foldl (fun r kv => objSet r (f kv.1) kv.2) acc
      = acc ++ l.map (fun kv => (f kv.1, kv.2)) := by
  intro l
  induction l with
  | nil => intro acc f _ _; simp
  | cons hd rest ih =>
    intro acc f hnd hfresh
    obtain ⟨k, v⟩ := hd
    simp only [List.map_cons, List.nodup_cons] at hnd
    have hset : objSet acc (f k) v = acc ++ [(f k, v)] :=
      objSet_not_mem v (hfresh (k, v) (List.mem_cons_self _ _))
    have hrec : rest.foldl (fun r kv => objSet r (f kv.1) kv.2) (acc ++ [(f k, v)])
        = (acc ++ [(f k, v)]) ++ rest.map (fun kv => (f kv.1, kv.2)) := by
      apply ih
      · exact hnd.2
      · intro kv hm
        simp only [List.map_append, List.mem_append, List.map_cons, List.map_nil,
          List.mem_singleton, not_or]
        refine ⟨hfresh kv (List.mem_cons_of_mem _ hm), ?_⟩
        intro e
        exact hnd.1 (e ▸ List.mem_map_of_mem (fun kv => f kv.1) hm)
    simp only [List.foldl_cons, hset, hrec, List.map_cons, List.append_assoc,
      List.singleton_append]

/-- Claim C7. With a non-empty namespace and a supplied theme, the
namespace filter keeps exactly the top-level keys starting with the
namespace, re-keys them by stripping the prefix and lower-casing the first
remaining character, and keeps the original values untouched (provided the
stripped keys do not collide); with an empty or absent namespace the theme
is returned unchanged; `filterByNamespace({fooBar:'x', bazQux:'y'}, 'foo')`
yields `{bar:'x'}`. -/
theorem namespace_filter_spec :
    ∀ (t : Theme) (ns : String),
    ns ≠ "" →
    ((t.filter (fun kv => strStartsWith kv.1 ns)).map
      (fun kv => removeNamespace kv.1 ns)).Nodup →
    getNamespacedTheme (some ns) (some t)
      = .ok ((t.filter (fun kv => strStartsWith kv.1 ns)).map
          (fun kv => (removeNamespace kv.1 ns, kv.2)))
    ∧ getNamespacedTheme none (some t) = .ok t
    ∧ getNamespacedTheme (some "") (some t) = .ok t
    ∧ removeNamespace "fooBar" "foo" = "bar"
    ∧ getNamespacedTheme (some "foo") (some [("fooBar", TVal.str "x"), ("bazQux", TVal.str "y")])
      = .ok [("bar", TVal.str "x")] := by
  intro t ns hns hnd
  have ht : strTruthy (some ns) = true := by simp [strTruthy, hns]
  refine ⟨?_, rfl, rfl, rfl, rfl⟩
  simp only [getNamespacedTheme, ht, Option.isNone_some, Bool.not_true, Bool.or_false,
    Bool.false_and, Bool.and_false, if_false, Bool.false_eq_true, ite_false]
  rw [foldl_objSet_fresh _ [] (fun k => removeNamespace k ns) hnd (by intro kv _; simp)]
  simp

/-- Witness for `namespace_filter_spec` at the spec's example input. -/
theorem namespace_filter_spec_witness :
    ("foo" ≠ "")
    ∧ ((([("fooBar", TVal.str "x"), ("bazQux", TVal.str "y")] : Theme).filter
        (fun kv => strStartsWith kv.1 "foo")).map
          (fun kv => removeNamespace kv.1 "foo")).Nodup
    ∧ getNamespacedTheme (some "foo")
        (some [("fooBar", TVal.str "x"), ("bazQux", TVal.str "y")])
      = .ok ((([("fooBar", TVal.str "x"), ("bazQux", TVal.str "y")] : Theme).filter
          (fun kv => strStartsWith kv.1 "foo")).map
            (fun kv => (removeNamespace kv.1 "foo", kv.2))) :=
  ⟨by decide, by decide,
    (namespace_filter_spec [("fooBar", TVal.str "x"), ("bazQux", TVal.str "y")] "foo"
      (by decide) (by decide)).1⟩

theorem indexOf_prefix_iff : ∀ (taken rest : List String) (x : String),
    ((taken ++ x :: rest).indexOf x = taken.length) ↔ x ∉ taken := by
  intro taken
  induction taken with
  | nil => intro rest x; simp [List.indexOf_cons_self]
  | cons t ts ih =>
    intro rest x
    by_cases he : t = x
    · subst he
      simp [List.indexOf_cons_self]
    · rw [List.cons_append, List.indexOf_cons_ne _ he, List.length_cons, Nat.succ_inj,
        ih rest x]
      constructor
      · intro hnot hmem
        rcases List.mem_cons.mp hmem with he2 | hmem2
        · exact he he2.symm
        · exact hnot hmem2
      · intro hnot hmem
        exact hnot (List.mem_cons_of_mem t hmem)

theorem dedupeSeen_congr : ∀ (l s1 s2 : List String),
    (∀ x, x ∈ s1 ↔ x ∈ s2) → dedupeSeen s1 l = dedupeSeen s2 l := by
  intro l
  induction l with
  | nil => intro _ _ _; rfl
  | cons x rest ih =>
    intro s1 s2 hs
    have hcons : ∀ y, y ∈ x :: s1 ↔ y ∈ x :: s2 := by
      intro y
      simp [List.mem_cons, hs y]
    simp only [dedupeSeen, hs x, ih (x :: s1) (x :: s2) hcons]

theorem jsDedupeFrom_eq_dedupeSeen : ∀ (l taken : List String),
    jsDedupeFrom (taken ++ l) taken.length l = dedupeSeen taken l := by
  intro l
  induction l with
  | nil => intro taken; rfl
  | cons x rest ih =>
    intro taken
    have hself : taken ++ x :: rest = (taken ++ [x]) ++ rest := by simp
    have hlen : taken.length + 1 = (taken ++ [x]).length := by simp
    have hrec : jsDedupeFrom (taken ++ x :: rest) (taken.length + 1) rest
        = dedupeSeen (x :: taken) rest := by
      rw [hself, hlen, ih (taken ++ [x])]
      apply dedupeSeen_congr
      intro y
      simp [List.mem_append, List.mem_cons, or_comm]
    by_cases hcond : x ∈ taken ∨ x = ""
    · have hno : ¬((taken ++ x :: rest).indexOf x = taken.length ∧ x ≠ "") := by
        rcases hcond with hmem | hemp
        · intro hcontra
          exact absurd ((indexOf_prefix_iff taken rest x).mp hcontra.1) (by simpa using hmem)
        · intro hcontra
          exact hcontra.2 hemp
      simp only [jsDedupeFrom, if_neg hno, dedupeSeen, if_pos hcond, hrec]
    · push_neg at hcond
      have hyes : (taken ++ x :: rest).indexOf x = taken.length ∧ x ≠ "" :=
        ⟨(indexOf_prefix_iff taken rest x).mpr hcond.1, hcond.2⟩
      have hno2 : ¬(x ∈ taken ∨ x = "") := by
        intro hcontra
        rcases hcontra with h1 | h2
        · exact hcond.1 h1
        · exact hcond.2 h2
      simp only [jsDedupeFrom, if_pos hyes, dedupeSeen, if_neg hno2, hrec]

theorem jsDedupe_eq_dedupeSeen : ∀ (l : List String), jsDedupe l = dedupeSeen [] l := by
  intro l
  have := jsDedupeFrom_eq_dedupeSeen l []
  simpa [jsDedupe] using this

theorem dedupeSeen_mem : ∀ (l seen : List String) (y : String),
    y ∈ dedupeSeen seen l ↔ y ∈ l ∧ y ∉ seen ∧ y ≠ "" := by
  intro l
  induction l with
  | nil => intro seen y; simp [dedupeSeen]
  | cons x rest ih =>
    intro seen y
    by_cases hcond : x ∈ seen ∨ x = ""
    · rw [dedupeSeen, if_pos hcond, ih (x :: seen) y]
      constructor
      · rintro ⟨h1, h2, h3⟩
        simp only [List.mem_cons, not_or] at h2
        exact ⟨List.mem_cons_of_mem x h1, h2.2, h3⟩
      · rintro ⟨h1, h2, h3⟩
        have hyx : y ≠ x := by
          intro e
          subst e
          rcases hcond with hm | he
          · exact h2 hm
          · exact h3 he
        rcases List.mem_cons.mp h1 with he | hm
        · exact absurd he hyx
        · refine ⟨hm, ?_, h3⟩
          simp only [List.mem_cons, not_or]
          exact ⟨hyx, h2⟩
    · rw [dedupeSeen, if_neg hcond]
      push_neg at hcond
      rw [List.mem_cons, ih (x :: seen) y]
      constructor
      · rintro (he | ⟨h1, h2, h3⟩)
        · subst he
          exact ⟨List.mem_cons_self _ _, hcond.1, hcond.2⟩
        · simp only [List.mem_cons, not_or] at h2
          exact ⟨List.mem_cons_of_mem x h1, h2.2, h3⟩
      · rintro ⟨h1, h2, h3⟩
        by_cases hyx : y = x
        · exact Or.inl hyx
        · rcases List.mem_cons.mp h1 with he | hm
          · exact absurd he hyx
          · refine Or.inr ⟨hm, ?_, h3⟩
            simp only [List.mem_cons, not_or]
            exact ⟨hyx, h2⟩

theorem dedupeSeen_nodup : ∀ (l seen : List String), (dedupeSeen seen l).Nodup := by
  intro l
  induction l with
  | nil => intro seen; simp [dedupeSeen]
  | cons x rest ih =>
    intro seen
    by_cases hcond : x ∈ seen ∨ x = ""
    · rw [dedupeSeen, if_pos hcond]
      exact ih (x :: seen)
    · rw [dedupeSeen, if_neg hcond]
      rw [List.nodup_cons]
      refine ⟨?_, ih (x :: seen)⟩
      intro hx
      have := (dedupeSeen_mem rest (x :: seen) x).mp hx
      exact this.2.1 (List.mem_cons_self _ _)

theorem dedupeSeen_append : ∀ (l1 l2 seen : List String),
    dedupeSeen seen (l1 ++ l2) = dedupeSeen seen l1 ++ dedupeSeen (l1 ++ seen) l2 := by
  intro l1
  induction l1 with
  | nil => intro l2 seen; simp [dedupeSeen]
  | cons x rest ih =>
    intro l2 seen
    have hcongr : dedupeSeen (rest ++ x :: seen) l2 = dedupeSeen ((x :: rest) ++ seen) l2 := by
      apply dedupeSeen_congr
      intro y
      simp [List.mem_append, List.mem_cons]
      tauto
    by_cases hcond : x ∈ seen ∨ x = ""
    · rw [List.cons_append, dedupeSeen, if_pos hcond, dedupeSeen, if_pos hcond,
        ih l2 (x :: seen), hcongr]
    · rw [List.cons_append, dedupeSeen, if_neg hcond, dedupeSeen, if_neg hcond,
        ih l2 (x :: seen), hcongr, List.cons_append]
      rfl

theorem dedupeSeen_filter : ∀ (l s1 s2 : List String),
    dedupeSeen (s1 ++ s2) l = (dedupeSeen s2 l).filter (fun x => decide (x ∉ s1)) := by
  intro l
  induction l with
  | nil => intro s1 s2; simp [dedupeSeen]
  | cons x rest ih =>
    intro s1 s2
    have hcongr : dedupeSeen (x :: (s1 ++ s2)) rest = dedupeSeen (s1 ++ x :: s2) rest := by
      apply dedupeSeen_congr
      intro y
      simp [List.mem_append, List.mem_cons]
      tauto
    by_cases hc2 : x ∈ s2 ∨ x = ""
    · have hc12 : x ∈ s1 ++ s2 ∨ x = "" := by
        rcases hc2 with hm | he
        · exact Or.inl (List.mem_append_right s1 hm)
        · exact Or.inr he
      rw [dedupeSeen, if_pos hc12, dedupeSeen, if_pos hc2, hcongr, ih s1 (x :: s2)]
    · push_neg at hc2
      by_cases hc1 : x ∈ s1
      · have hc12 : x ∈ s1 ++ s2 ∨ x = "" := Or.inl (List.mem_append_left s2 hc1)
        rw [dedupeSeen, if_pos hc12, dedupeSeen,
          if_neg (by push_neg; exact hc2), hcongr, ih s1 (x :: s2)]
        rw [List.filter_cons]
        simp [hc1]
      · have hc12 : ¬(x ∈ s1 ++ s2 ∨ x = "") := by
          rw [List.mem_append]
          push_neg
          exact ⟨⟨hc1, hc2.1⟩, hc2.2⟩
        rw [dedupeSeen, if_neg hc12, dedupeSeen,
          if_neg (by push_neg; exact hc2), hcongr, ih s1 (x :: s2)]
        rw [List.filter_cons]
        simp [hc1]

/-- Claim C6 counterexample. The claim says the token merge splits its
inputs on whitespace, so every non-empty (whitespace-delimited) token of
the inputs should occur exactly once in the result. The source splits on
the space character only (`split(' ')`); with `a = "a\tb"` (a tab) and
`b = "b"`, whose whitespace-token lists are `["a","b"]` and `["b"]`, the
code returns `"a\tb b"`, in which the token `b` occurs twice. -/
theorem token_merge_whitespace_counterexample :
    wsTokens "a\tb" = ["a", "b"]
    ∧ mergeScalar "a\tb" "b" = "a\tb b"
    ∧ (wsTokens (mergeScalar "a\tb" "b")).count "b" = 2 :=
  ⟨rfl, rfl, rfl⟩

/-- Claim C6 (amended: tokens are delimited by the space character, which
is what `split(' ')` produces, rather than by general whitespace). The
token merge concatenates the space-split pieces of `a` and `b`, removes
empty pieces, de-duplicates keeping first occurrences, and joins with
single spaces; the resulting token list contains every non-empty
space-delimited token of `a` and `b` exactly once, in order: `a`'s tokens
in first-occurrence order, then `b`'s tokens not already present; both
inputs empty gives the empty string, and
`merge({btn:'a b'}, {btn:'b c'})` yields `{btn:'a b c'}`. -/
theorem token_merge_space_semantics :
    ∀ a b : String,
    mergeScalar a b = joinSpace (jsDedupe (jsSplitSpace a ++ jsSplitSpace b))
    ∧ jsDedupe (jsSplitSpace a ++ jsSplitSpace b)
      = jsDedupe (jsSplitSpace a)
        ++ (jsDedupe (jsSplitSpace b)).filter (fun x => decide (x ∉ spaceTokens a))
    ∧ (jsDedupe (jsSplitSpace a ++ jsSplitSpace b)).Nodup
    ∧ (∀ x : String, x ∈ jsDedupe (jsSplitSpace a ++ jsSplitSpace b)
        ↔ x ∈ spaceTokens a ∨ x ∈ spaceTokens b)
    ∧ mergeScalar "" "" = ""
    ∧ merge [("btn", .str "a b")] [("btn", .str "b c")] = .ok [("btn", .str "a b c")] := by
  intro a b
  refine ⟨rfl, ?_, ?_, ?_, rfl, ?_⟩
  · rw [jsDedupe_eq_dedupeSeen (jsSplitSpace a ++ jsSplitSpace b), dedupeSeen_append,
      jsDedupe_eq_dedupeSeen (jsSplitSpace a), jsDedupe_eq_dedupeSeen (jsSplitSpace b)]
    congr 1
    rw [dedupeSeen_filter (jsSplitSpace b) (jsSplitSpace a) []]
    apply List.filter_congr
    intro x hx
    have hxne : x ≠ "" := ((dedupeSeen_mem _ _ _).mp hx).2.2
    rw [decide_eq_decide]
    simp [spaceTokens, List.mem_filter, hxne]
  · rw [jsDedupe_eq_dedupeSeen]
    exact dedupeSeen_nodup _ _
  · intro x
    rw [jsDedupe_eq_dedupeSeen, dedupeSeen_mem]
    simp only [spaceTokens, List.mem_filter, List.mem_append, List.not_mem_nil,
      not_false_iff, true_and, decide_eq_true_eq]
    constructor
    · rintro ⟨hm | hm, hne⟩
      · exact Or.inl ⟨hm, hne⟩
      · exact Or.inr ⟨hm, hne⟩
    · rintro (⟨hm, hne⟩ | ⟨hm, hne⟩)
      · exact ⟨Or.inl hm, hne⟩
      · exact ⟨Or.inr hm, hne⟩
  · simp [merge, mergeGo, cloneStrip, objGet, objSet, TVal.isFn, mergeScalar, jsDedupe,
      jsDedupeFrom, jsSplitSpace, splitSpAux, joinSpace]

theorem take_len_le {α : Type} {h1 h2 : List α} (he : h2.take h1.length = h1) :
    h1.length ≤ h2.length := by
  have := congrArg List.length he
  rw [List.length_take] at this
  omega

theorem take_trans {α : Type} {h1 h2 h3 : List α}
    (e12 : h2.take h1.length = h1) (e23 : h3.take h2.length = h2) :
    h3.take h1.length = h1 := by
  have hle : h1.length ≤ h2.length := take_len_le e12
  calc h3.take h1.length
      = (h3.take h2.length).take h1.length := by
        rw [List.take_take]
        congr 1
        omega
    _ = h2.take h1.length := by rw [e23]
    _ = h1 := e12

theorem mergeHeapGo_frame (fuel : Nat)
    (IH : ∀ (h : Heap) (a b : Nat), (mergeHeap fuel h a b).1.take h.length = h) :
    ∀ (l : List (String × HVal)) (h : Heap) (result : HObj),
    (mergeHeapGo fuel h result l).1.take h.length = h := by
  intro l
  induction l with
  | nil => intro h result; simp [mergeHeapGo, List.take_length]
  | cons hd rest ih =>
    intro h result
    obtain ⟨k, mv⟩ := hd
    cases mv with
    | undef =>
      simp only [mergeHeapGo]
      exact ih h result
    | fn =>
      simp only [mergeHeapGo]
      exact ih h result
    | str s =>
      rcases hov : hGet result k with os | oAddr | _ | _
      · simp only [mergeHeapGo, hov]
        exact ih h _
      · simp only [mergeHeapGo, hov]
        exact List.take_length h
      · simp only [mergeHeapGo, hov]
        exact ih h result
      · simp only [mergeHeapGo, hov]
        exact ih h _
    | ref mAddr =>
      rcases hov : hGet result k with os | oAddr | _ | _
      · simp only [mergeHeapGo, hov]
        exact List.take_length h
      · simp only [mergeHeapGo, hov]
        rcases hmm : mergeHeap fuel h oAddr mAddr with ⟨h2, res⟩
        have hfr : h2.take h.length = h := by
          have hthis := IH h oAddr mAddr
          rw [hmm] at hthis
          exact hthis
        cases res with
        | error e => simpa using hfr
        | ok rAddr => exact take_trans hfr (ih h2 (hSet result k (.ref rAddr)))
      · simp only [mergeHeapGo, hov]
        exact List.take_length h
      · simp only [mergeHeapGo, hov]
        exact ih h _

theorem mergeHeap_frame_aux : ∀ (fuel : Nat) (h : Heap) (a b : Nat),
    (mergeHeap fuel h a b).1.take h.length = h := by
  intro fuel
  induction fuel with
  | zero => intro h a b; simp [mergeHeap, List.take_length]
  | succ fuel ih =>
    intro h a b
    simp only [mergeHeap]
    rcases hmm : mergeHeapGo fuel h (cloneStripH (heapGet h a)) (heapGet h b) with ⟨h2, res⟩
    have hfr : h2.take h.length = h := by
      have hthis := mergeHeapGo_frame fuel ih (heapGet h b) h (cloneStripH (heapGet h a))
      rw [hmm] at hthis
      exact hthis
    cases res with
    | error e => simpa using hfr
    | ok r =>
      show (h2 ++ [r]).take h.length = h
      exact take_trans hfr (List.take_left h2 [r])

/-- Claim C10. The heap-level merge never writes to any address that
existed before the call: the final heap extends the initial one (every
pre-existing object, in particular both arguments and everything they
reference, is unchanged at any depth), and on success the result is a
freshly allocated address outside the initial heap. -/
theorem merge_never_mutates :
    ∀ (fuel : Nat) (h : Heap) (a b : Nat) (h2 : Heap) (r : Nat),
    mergeHeap fuel h a b = (h2, Except.ok r) →
    h2.take h.length = h ∧ h.length ≤ r := by
  intro fuel h a b h2 r heq
  refine ⟨?_, ?_⟩
  · have hthis := mergeHeap_frame_aux fuel h a b
    rw [heq] at hthis
    exact hthis
  · cases fuel with
    | zero => rw [mergeHeap] at heq; simp at heq
    | succ fuel =>
      rw [mergeHeap] at heq
      rcases hmm : mergeHeapGo fuel h (cloneStripH (heapGet h a)) (heapGet h b) with ⟨hg, res⟩
      rw [hmm] at heq
      cases res with
      | error e => simp at heq
      | ok resObj =>
        simp only [Prod.mk.injEq, Except.ok.injEq] at heq
        have hfrg : hg.take h.length = h := by
          have hthis := mergeHeapGo_frame fuel (mergeHeap_frame_aux fuel) (heapGet h b) h
            (cloneStripH (heapGet h a))
          rw [hmm] at hthis
          exact hthis
        have hle : h.length ≤ hg.length := take_len_le hfrg
        omega

/-- Witness for `merge_never_mutates` on a concrete two-object heap. -/
theorem merge_never_mutates_witness :
    mergeHeap 2 [[("a", HVal.str "x")], [("b", HVal.str "y")]] 0 1
      = ([[("a", HVal.str "x")], [("b", HVal.str "y")],
          [("a", HVal.str "x"), ("b", HVal.str "y")]], Except.ok 2)
    ∧ (([[("a", HVal.str "x")], [("b", HVal.str "y")],
        [("a", HVal.str "x"), ("b", HVal.str "y")]] : Heap).take 2
          = [[("a", HVal.str "x")], [("b", HVal.str "y")]]
      ∧ 2 ≤ 2) := by
  have heq : mergeHeap 2 [[("a", HVal.str "x")], [("b", HVal.str "y")]] 0 1
      = ([[("a", HVal.str "x")], [("b", HVal.str "y")],
          [("a", HVal.str "x"), ("b", HVal.str "y")]], Except.ok 2) := by
    simp [mergeHeap, mergeHeapGo, heapGet, cloneStripH, hGet, hSet, HVal.isFn]
  exact ⟨heq, merge_never_mutates 2 _ 0 1 _ 2 heq⟩
